import Mathlib

/-!
Shallow embedding of the reconciliation core of `src/engine.js` (a local
declarative reconciliation engine).  JavaScript objects are modelled as
association lists with unique keys (JS objects cannot hold a key twice);
property lookup is first-match lookup and property assignment replaces in
place or appends.  JavaScript values that may be absent are modelled as
`Option`; JS truthiness of an optional string (absent, or the empty
string, are falsy) is `truthyStr`.  The filesystem, the content digest and
the TCP probe are external effects and enter as explicit parameters.
-/

namespace Nexus

/-- JSON-style runtime value, including the JavaScript `undefined`
(`undefined`), which `JSON.stringify` treats specially: an object field whose
value is `undefined` is dropped, an `undefined` array element becomes
`null`. -/
inductive JValue where
  | null : JValue
  | undefined : JValue
  | bool (b : Bool) : JValue
  | num (n : Int) : JValue
  | str (s : String) : JValue
  | arr (elems : List JValue) : JValue
  | obj (fields : List (String × JValue)) : JValue

mutual

/-- Decidable equality on `JValue` (written by hand because automatic
derivation does not handle the nested lists). -/
def JValue.decEq : (a b : JValue) → Decidable (a = b)
  | .null, .null => isTrue rfl
  | .undefined, .undefined => isTrue rfl
  | .bool a, .bool b =>
    match Bool.decEq a b with
    | isTrue h => isTrue (h ▸ rfl)
    | isFalse h => isFalse fun hh => h (by injection hh)
  | .num a, .num b =>
    match Int.decEq a b with
    | isTrue h => isTrue (h ▸ rfl)
    | isFalse h => isFalse fun hh => h (by injection hh)
  | .str a, .str b =>
    match String.decEq a b with
    | isTrue h => isTrue (h ▸ rfl)
    | isFalse h => isFalse fun hh => h (by injection hh)
  | .arr xs, .arr ys =>
    match JValue.decEqList xs ys with
    | isTrue h => isTrue (h ▸ rfl)
    | isFalse h => isFalse fun hh => h (by injection hh)
  | .obj xs, .obj ys =>
    match JValue.decEqFields xs ys with
    | isTrue h => isTrue (h ▸ rfl)
    | isFalse h => isFalse fun hh => h (by injection hh)
  | .null, .undefined => isFalse (by intro h; exact JValue.noConfusion h)
  | .null, .bool _ => isFalse (by intro h; exact JValue.noConfusion h)
  | .null, .num _ => isFalse (by intro h; exact JValue.noConfusion h)
  | .null, .str _ => isFalse (by intro h; exact JValue.noConfusion h)
  | .null, .arr _ => isFalse (by intro h; exact JValue.noConfusion h)
  | .null, .obj _ => isFalse (by intro h; exact JValue.noConfusion h)
  | .undefined, .null => isFalse (by intro h; exact JValue.noConfusion h)
  | .undefined, .bool _ => isFalse (by intro h; exact JValue.noConfusion h)
  | .undefined, .num _ => isFalse (by intro h; exact JValue.noConfusion h)
  | .undefined, .str _ => isFalse (by intro h; exact JValue.noConfusion h)
  | .undefined, .arr _ => isFalse (by intro h; exact JValue.noConfusion h)
  | .undefined, .obj _ => isFalse (by intro h; exact JValue.noConfusion h)
  | .bool _, .null => isFalse (by intro h; exact JValue.noConfusion h)
  | .bool _, .undefined => isFalse (by intro h; exact JValue.noConfusion h)
  | .bool _, .num _ => isFalse (by intro h; exact JValue.noConfusion h)
  | .bool _, .str _ => isFalse (by intro h; exact JValue.noConfusion h)
  | .bool _, .arr _ => isFalse (by intro h; exact JValue.noConfusion h)
  | .bool _, .obj _ => isFalse (by intro h; exact JValue.noConfusion h)
  | .num _, .null => isFalse (by intro h; exact JValue.noConfusion h)
  | .num _, .undefined => isFalse (by intro h; exact JValue.noConfusion h)
  | .num _, .bool _ => isFalse (by intro h; exact JValue.noConfusion h)
  | .num _, .str _ => isFalse (by intro h; exact JValue.noConfusion h)
  | .num _, .arr _ => isFalse (by intro h; exact JValue.noConfusion h)
  | .num _, .obj _ => isFalse (by intro h; exact JValue.noConfusion h)
  | .str _, .null => isFalse (by intro h; exact JValue.noConfusion h)
  | .str _, .undefined => isFalse (by intro h; exact JValue.noConfusion h)
  | .str _, .bool _ => isFalse (by intro h; exact JValue.noConfusion h)
  | .str _, .num _ => isFalse (by intro h; exact JValue.noConfusion h)
  | .str _, .arr _ => isFalse (by intro h; exact JValue.noConfusion h)
  | .str _, .obj _ => isFalse (by intro h; exact JValue.noConfusion h)
  | .arr _, .null => isFalse (by intro h; exact JValue.noConfusion h)
  | .arr _, .undefined => isFalse (by intro h; exact JValue.noConfusion h)
  | .arr _, .bool _ => isFalse (by intro h; exact JValue.noConfusion h)
  | .arr _, .num _ => isFalse (by intro h; exact JValue.noConfusion h)
  | .arr _, .str _ => isFalse (by intro h; exact JValue.noConfusion h)
  | .arr _, .obj _ => isFalse (by intro h; exact JValue.noConfusion h)
  | .obj _, .null => isFalse (by intro h; exact JValue.noConfusion h)
  | .obj _, .undefined => isFalse (by intro h; exact JValue.noConfusion h)
  | .obj _, .bool _ => isFalse (by intro h; exact JValue.noConfusion h)
  | .obj _, .num _ => isFalse (by intro h; exact JValue.noConfusion h)
  | .obj _, .str _ => isFalse (by intro h; exact JValue.noConfusion h)
  | .obj _, .arr _ => isFalse (by intro h; exact JValue.noConfusion h)

/-- Decidable equality on lists of `JValue`. -/
def JValue.decEqList : (a b : List JValue) → Decidable (a = b)
  | [], [] => isTrue rfl
  | x :: xs, y :: ys =>
    match JValue.decEq x y, JValue.decEqList xs ys with
    | isTrue h1, isTrue h2 => isTrue (by rw [h1, h2])
    | isFalse h1, _ => isFalse fun hh => h1 (by injection hh)
    | _, isFalse h2 => isFalse fun hh => h2 (by injection hh)
  | [], _ :: _ => isFalse (by intro h; exact List.noConfusion h)
  | _ :: _, [] => isFalse (by intro h; exact List.noConfusion h)

/-- Decidable equality on JS-object field lists. -/
def JValue.decEqFields : (a b : List (String × JValue)) → Decidable (a = b)
  | [], [] => isTrue rfl
  | (k1, v1) :: xs, (k2, v2) :: ys =>
    match String.decEq k1 k2, JValue.decEq v1 v2, JValue.decEqFields xs ys with
    | isTrue h0, isTrue h1, isTrue h2 => isTrue (by rw [h0, h1, h2])
    | isFalse h0, _, _ => isFalse fun hh => by
        injection hh with hp hr; injection hp with ha hb; exact h0 ha
    | _, isFalse h1, _ => isFalse fun hh => by
        injection hh with hp hr; injection hp with ha hb; exact h1 hb
    | _, _, isFalse h2 => isFalse fun hh => by
        injection hh with hp hr; exact h2 hr
  | [], _ :: _ => isFalse (by intro h; exact List.noConfusion h)
  | _ :: _, [] => isFalse (by intro h; exact List.noConfusion h)

end

instance : DecidableEq JValue := JValue.decEq

/-- Property read on a JS object: first (only) binding of the key. -/
def objGet (o : List (String × α)) (k : String) : Option α :=
  match o with
  | [] => none
  | (k', v) :: rest => if k' = k then some v else objGet rest k

/-- Property write on a JS object: replace the binding in place when the
key exists, append otherwise. -/
def objSet (o : List (String × α)) (k : String) (v : α) : List (String × α) :=
  match o with
  | [] => [(k, v)]
  | (k', v') :: rest => if k' = k then (k', v) :: rest else (k', v') :: objSet rest k v

/-- JS truthiness of an optional string: `undefined`/absent and `""` are
falsy. -/
def truthyStr : Option String → Bool
  | some s => s ≠ ""
  | none => false

/-- JS `x || d` on an optional string: the string when truthy, else the
default. -/
def jsOrDefault (o : Option String) (d : String) : String :=
  match o with
  | some s => if s = "" then d else s
  | none => d

/-- Encoding of a JS value that is either a string or `undefined`. -/
def jOfOptStr : Option String → JValue
  | some s => .str s
  | none => .undefined

/-- Encoding of a JS value that is either a string or `null`. -/
def jOfNullableStr : Option String → JValue
  | some s => .str s
  | none => .null

/-- State-type definition (`StateDef`): the `type` capability identifier
plus the open, observer-defined configuration bag.  The fields are the
configuration keys read by the built-in observers of `observeState`;
`port` holds the result of `Number(config.port)` when that result is a
finite number, `none` otherwise. -/
structure StateDef where
  type : Option String := none
  lockfile : Option String := none
  source : Option String := none
  keys : Option (List String) := none
  from_ : Option String := none
  host : Option String := none
  port : Option Int := none
  deriving DecidableEq

/-- The `requires` block of a service (`requires.services`). -/
structure ReqBlock where
  services : Option (List String) := none
  deriving DecidableEq

/-- An environment consumption binding (`{ from: "provider.VAR" }`). -/
structure Binding where
  from_ : Option String := none
  deriving DecidableEq

/-- The `consumes` block of a service (`consumes.env`): variable name to
binding object (the binding itself may be null/undefined). -/
structure ConsBlock where
  env : Option (List (String × Option Binding)) := none
  deriving DecidableEq

/-- A service record of the manifest. -/
structure Service where
  root : Option String := none
  states : Option (List (String × StateDef)) := none
  requires : Option ReqBlock := none
  consumes : Option ConsBlock := none
  deriving DecidableEq

/-- Per-service desired block inside an intent (`{ states: [...] }`);
`states` is `none` when absent or not an array. -/
structure DesiredSvc where
  states : Option (List String) := none
  deriving DecidableEq

/-- The `desired` block of an intent. -/
structure Desired where
  services : Option (List (String × DesiredSvc)) := none
  deriving DecidableEq

/-- An intent record of the manifest. -/
structure Intent where
  desired : Option Desired := none
  deriving DecidableEq

/-- The loaded manifest (the parts the reconciliation core reads). -/
structure Manifest where
  services : List (String × Service) := []
  intents : List (String × Intent) := []
  defaultIntent : Option String := none
  deriving DecidableEq

/-- Error taxonomy of the engine (each constructor is one `throw` site). -/
inductive EngineError where
  | intentNotFound (name : String)
  | noIntents
  | intentHasNoDesiredServices (name : String)
  | serviceNotFound (name : String)
  | stateNotFound (service state : String)
  | invalidStateFile
  deriving DecidableEq

/-- A plan obligation: one (service, state) pair of the expanded intent. -/
structure PlanItem where
  serviceName : String
  stateId : String
  type : String
  config : StateDef
  service : Service
  deriving DecidableEq

/-- An observation: status (one of "healthy"/"missing"/"unknown") plus
open evidence. -/
structure Observation where
  status : String
  evidence : JValue
  deriving DecidableEq

/-- A validation result: the plan item spread together with its
observation (`{ ...item, observation }`). -/
structure ResultItem extends PlanItem where
  observation : Observation
  deriving DecidableEq

/-- One persisted observation record. -/
structure ObsRecord where
  status : String
  evidence : JValue
  lastValidatedAt : String
  lastAppliedAt : Option String
  deriving DecidableEq

/-- The persisted state: manifest hash (or null) and the observation map
keyed by "service:state". -/
structure PersistedState where
  manifestHash : Option String := none
  observations : List (String × ObsRecord) := []
  deriving DecidableEq

/-- Summary counts over a result list. -/
structure Summary where
  healthy : Nat
  missing : Nat
  unknown : Nat
  total : Nat
  deriving DecidableEq

/-- Default-resolution tail of `resolveIntentName` (the code after the
`if (intentName)` block): the explicit `defaultIntent` field when it is a
truthy string naming a declared intent, else the intent literally named
"feature" when declared, else the first declared intent, else the
`NoIntents` error. -/
def resolveDefaultIntent (m : Manifest) : Except EngineError String :=
  let viaDefault : Option String :=
    match m.defaultIntent with
    | some d => if d ≠ "" ∧ (objGet m.intents d).isSome then some d else none
    | none => none
  match viaDefault with
  | some d => .ok d
  | none =>
    if (objGet m.intents "feature").isSome then .ok "feature"
    else
      match m.intents with
      | (k, _) :: _ => .ok k
      | [] => .error .noIntents

/-- Embedding of `resolveIntentName(manifest, intentName)`: a truthy
supplied name (JS test `if (intentName)`, so a non-empty string) is
selected iff declared, else `IntentNotFound`; a falsy name falls through
to default resolution. -/
def resolveIntentName (m : Manifest) (intentName : Option String) : Except EngineError String :=
  match intentName with
  | some n =>
    if n ≠ "" then
      if (objGet m.intents n).isSome then .ok n else .error (.intentNotFound n)
    else resolveDefaultIntent m
  | none => resolveDefaultIntent m

/-- Inner loop of `buildPlan` over the desired state IDs of one service:
resolve each StateDef (error `StateNotFound` when absent or when its
`type` is falsy) and emit the PlanItem. -/
def buildPlanStates (serviceName : String) (service : Service) :
    List String → Except EngineError (List PlanItem)
  | [] => .ok []
  | stateId :: rest =>
    match objGet (service.states.getD []) stateId with
    | none => .error (.stateNotFound serviceName stateId)
    | some st =>
      match st.type with
      | none => .error (.stateNotFound serviceName stateId)
      | some t =>
        if t = "" then .error (.stateNotFound serviceName stateId)
        else
          (buildPlanStates serviceName service rest).map
            ({ serviceName := serviceName, stateId := stateId, type := t,
               config := st, service := service } :: ·)

/-- Outer loop of `buildPlan` over the entries of
`intent.desired.services`: resolve each service record (error
`ServiceNotFound` when absent), take its desired state list (a non-array
counts as `[]`), and expand the states. -/
def buildPlanLoop (m : Manifest) :
    List (String × DesiredSvc) → Except EngineError (List PlanItem)
  | [] => .ok []
  | (serviceName, desired) :: rest =>
    match objGet m.services serviceName with
    | none => .error (.serviceNotFound serviceName)
    | some service =>
      match buildPlanStates serviceName service (desired.states.getD []) with
      | .error e => .error e
      | .ok items => (buildPlanLoop m rest).map (items ++ ·)

/-- Embedding of `buildPlan(manifest, intentName)`: look the intent up,
require `intent.desired.services`, then expand every desired (service,
state) pair in order.  Any failure aborts the whole plan (the JS `throw`
escapes the function before anything is returned). -/
def buildPlan (m : Manifest) (intentName : String) : Except EngineError (List PlanItem) :=
  match ((objGet m.intents intentName).bind (·.desired)).bind (·.services) with
  | none => .error (.intentHasNoDesiredServices intentName)
  | some desiredServices => buildPlanLoop m desiredServices

/-- A dependency edge of the derived graph. -/
structure Edge where
  from_ : String
  to_ : String
  reason : String
  deriving DecidableEq

/-- Dedup key of an edge, exactly the string the code builds:
from ++ "->" ++ to ++ ":" ++ reason. -/
def edgeKey (from_ to_ reason : String) : String :=
  from_ ++ "->" ++ to_ ++ ":" ++ reason

/-- Embedding of `addEdge(edges, seen, from, to, reason)`: push the edge
unless its key is already in the seen set. -/
def addEdge (acc : List Edge × List String) (from_ to_ reason : String) :
    List Edge × List String :=
  let key := edgeKey from_ to_ reason
  if key ∈ acc.2 then acc
  else (acc.1 ++ [{ from_ := from_, to_ := to_, reason := reason }], key :: acc.2)

/-- Character membership in a string, at the character-list level (the
built-in `String.contains` does not reduce in the kernel). -/
def strContains (s : String) (c : Char) : Bool :=
  s.data.contains c

/-- Prefix test at the character-list level (the built-in
`String.startsWith` does not reduce in the kernel). -/
def strStartsWith (s pre : String) : Bool :=
  pre.data.isPrefixOf s.data

/-- First component of `from.split(".")` (JS `from.split(".")[0]`): the
prefix of the string before its first dot. -/
def providerOf (f : String) : String :=
  ⟨f.data.takeWhile (· ≠ '.')⟩

/-- Edge contributions of one service: one `requires` edge per entry of
`requires.services`, and one `consumes VAR` edge per `consumes.env`
binding whose `from` is a string containing a dot. -/
def serviceEdges (acc : List Edge × List String) (serviceName : String) (service : Service) :
    List Edge × List String :=
  let requires := (service.requires.bind (·.services)).getD []
  let acc := requires.foldl (fun a required => addEdge a serviceName required "requires") acc
  let consumes := (service.consumes.bind (·.env)).getD []
  consumes.foldl
    (fun a kv =>
      match kv.2.bind (·.from_) with
      | some f =>
        if strContains f '.' then addEdge a serviceName (providerOf f) ("consumes " ++ kv.1)
        else a
      | none => a)
    acc

/-- Embedding of `buildGraph(manifest)`: fold `serviceEdges` over the
services in declared order, starting from no edges and an empty seen set,
and return the edge list. -/
def buildGraph (m : Manifest) : List Edge :=
  (m.services.foldl (fun acc kv => serviceEdges acc kv.1 kv.2) ([], [])).1

/-- Simplified model of Node `path.resolve(base, p)`: an absolute `p` is
returned as is, otherwise it is joined to `base`.  Path normalization is
out of scope; the claims treat paths as opaque keys. -/
def pathResolve (base p : String) : String :=
  if strStartsWith p "/" then p else base ++ "/" ++ p

/-- Model of Node `path.join(base, p)` at the same level of abstraction. -/
def pathJoin (base p : String) : String :=
  base ++ "/" ++ p

/-- The observed filesystem: a map from (resolved) path to raw file
content.  `fs.existsSync` is key membership and reading returns the
content. -/
def Fsys := List (String × String)

/-- Embedding of `hashFile(path)` over the modelled filesystem, as the
optional digest: `hashFn` models the sha256 hex digest of the content
(the digest itself is an external primitive). -/
def hashFile (fs : Fsys) (hashFn : String → String) (p : String) : Option String :=
  (objGet fs p).map (fun content => "sha256:" ++ hashFn content)

/-- Embedding of `observeState(item, projectRoot)`.  External effects are
explicit: `fs` the filesystem, `hashFn` the content digest, `probe` the
outcome of the bounded TCP connect `checkPort(host, port, 300)`.  The JS
function has no throw site: every branch returns a normal Observation,
which is why this embedding is a total function into `Observation`. -/
def observeState (fs : Fsys) (hashFn : String → String) (probe : String → Int → Bool)
    (item : PlanItem) (projectRoot : String) : Observation :=
  let serviceRoot := jsOrDefault item.service.root "."
  let resolvedRoot := pathResolve projectRoot serviceRoot
  let type := item.type
  if type = "package.deps" then
    let lockfile := jsOrDefault item.config.lockfile "package-lock.json"
    let lockfilePath := pathJoin resolvedRoot lockfile
    match hashFile fs hashFn lockfilePath with
    | none =>
      { status := "missing",
        evidence := .obj [("lockfile", .str lockfilePath), ("exists", .bool false)] }
    | some checksum =>
      { status := "healthy",
        evidence := .obj [("lockfile", .str lockfilePath), ("checksum", .str checksum)] }
  else if type = "db.schema" then
    match item.config.source with
    | none => { status := "unknown", evidence := .obj [("reason", .str "no source defined")] }
    | some source =>
      if source = "" then
        { status := "unknown", evidence := .obj [("reason", .str "no source defined")] }
      else
        let schemaPath := pathResolve resolvedRoot source
        let exists_ := (objGet fs schemaPath).isSome
        { status := if exists_ then "healthy" else "missing",
          evidence := .obj
            [("source", .str schemaPath), ("exists", .bool exists_),
             ("checksum", match hashFile fs hashFn schemaPath with
               | some c => .str c
               | none => .undefined)] }
  else if type = "env.export" then
    let keys := item.config.keys.getD []
    { status := if keys.length > 0 then "healthy" else "missing",
      evidence := .obj [("keys", .arr (keys.map (.str ·)))] }
  else if type = "env.inherit" then
    { status := if truthyStr item.config.from_ then "healthy" else "missing",
      evidence := .obj [("from", jOfOptStr item.config.from_)] }
  else if type = "process.http" then
    let host := jsOrDefault item.config.host "127.0.0.1"
    match item.config.port with
    | none => { status := "unknown", evidence := .obj [("reason", .str "invalid port")] }
    | some port =>
      let isOpen := probe host port
      { status := if isOpen then "healthy" else "missing",
        evidence := .obj
          [("host", .str host), ("port", .num port), ("open", .bool isOpen)] }
  else
    { status := "unknown", evidence := .obj [("type", .str type)] }

/-- Embedding of `validatePlan(plan, projectRoot)`: observe every plan
item in order and pair it with its observation. -/
def validatePlan (fs : Fsys) (hashFn : String → String) (probe : String → Int → Bool)
    (plan : List PlanItem) (projectRoot : String) : List ResultItem :=
  plan.map fun item =>
    { toPlanItem := item, observation := observeState fs hashFn probe item projectRoot }

/-- The "service:state" key of a result, as built in `updateState`. -/
def resultKey (r : ResultItem) : String :=
  r.serviceName ++ ":" ++ r.stateId

/-- The fresh observation record `updateState` stores for one result:
status and evidence from the new observation, `lastValidatedAt` stamped
with `now`, `lastAppliedAt` carried over from the previous record of the
same key when one exists, else null. -/
def mkObsRecord (existing : PersistedState) (now : String) (r : ResultItem) : ObsRecord :=
  { status := r.observation.status,
    evidence := r.observation.evidence,
    lastValidatedAt := now,
    lastAppliedAt :=
      match objGet existing.observations (resultKey r) with
      | some p => p.lastAppliedAt
      | none => none }

/-- Embedding of `updateState(existingState, results, manifestHash)`:
build a wholly new observation map holding one record per result key;
`now` models `new Date().toISOString()`. -/
def updateState (existing : PersistedState) (results : List ResultItem)
    (manifestHash : Option String) (now : String) : PersistedState :=
  { manifestHash := manifestHash,
    observations :=
      results.foldl (fun acc r => objSet acc (resultKey r) (mkObsRecord existing now r)) [] }

/-- Loop body of `summarizeResults`: count a healthy or missing status in
its bucket and everything else in the unknown bucket. -/
def summarizeStep (s : Summary) (r : ResultItem) : Summary :=
  if r.observation.status = "healthy" then { s with healthy := s.healthy + 1 }
  else if r.observation.status = "missing" then { s with missing := s.missing + 1 }
  else { s with unknown := s.unknown + 1 }

/-- Embedding of `summarizeResults(results)`: fold `summarizeStep` over
the results and set `total` to the length of the list. -/
def summarizeResults (results : List ResultItem) : Summary :=
  let s := results.foldl summarizeStep { healthy := 0, missing := 0, unknown := 0, total := 0 }
  { s with total := results.length }

mutual

/-- Value-level effect of `JSON.parse(JSON.stringify(v))` on a JSON
value, per ECMA-262: object fields whose value is `undefined` are
dropped, `undefined` array elements serialize as `null`, everything else
round-trips unchanged.  (JSON text syntax itself is out of scope; file
content is modelled at the parsed-value level.) -/
def jnormalize : JValue → JValue
  | .null => .null
  | .undefined => .undefined
  | .bool b => .bool b
  | .num n => .num n
  | .str s => .str s
  | .arr elems => .arr (jnormalizeArr elems)
  | .obj fields => .obj (jnormalizeObj fields)

/-- Array elements under `JSON.stringify`: `undefined` becomes `null`. -/
def jnormalizeArr : List JValue → List JValue
  | [] => []
  | v :: rest =>
    (match v with
      | .undefined => .null
      | other => jnormalize other) :: jnormalizeArr rest

/-- Object fields under `JSON.stringify`: `undefined`-valued fields are
dropped. -/
def jnormalizeObj : List (String × JValue) → List (String × JValue)
  | [] => []
  | (k, v) :: rest =>
    match v with
    | .undefined => jnormalizeObj rest
    | other => (k, jnormalize other) :: jnormalizeObj rest

end

/-- JSON encoding of one persisted observation record, with the fields in
the order `updateState` writes them. -/
def obsRecordToJValue (r : ObsRecord) : JValue :=
  .obj [("status", .str r.status), ("evidence", r.evidence),
        ("lastValidatedAt", .str r.lastValidatedAt),
        ("lastAppliedAt", jOfNullableStr r.lastAppliedAt)]

/-- JSON encoding of the persisted state, as `writeState` serializes it. -/
def stateToJValue (s : PersistedState) : JValue :=
  .obj [("manifestHash", jOfNullableStr s.manifestHash),
        ("observations", .obj (s.observations.map fun kv => (kv.1, obsRecordToJValue kv.2)))]

/-- The state-file filesystem: a map from (resolved) path to the file's
content as a parsed JSON value, or `none` for content that is not valid
JSON (the `JSON.parse` failure case). -/
def StateFs := List (String × Option JValue)

/-- Embedding of `loadState(statePath)` against current directory `cwd`:
the empty persisted state when no file exists, the parsed JSON value as
is (no shape validation) when it parses, the `CorruptState` error
otherwise. -/
def loadState (fs : StateFs) (cwd : String) (statePath : String) : Except EngineError JValue :=
  let absolutePath := pathResolve cwd statePath
  match objGet fs absolutePath with
  | none => .ok (.obj [("manifestHash", .null), ("observations", .obj [])])
  | some none => .error .invalidStateFile
  | some (some v) => .ok v

/-- Embedding of `writeState(state, statePath)` against current directory
`cwd`: store `JSON.stringify(state, null, 2)` at the resolved path (at
the parsed-value level this is `jnormalize` of the state's JSON
encoding; `mkdirSync` only affects directory metadata and is not
modelled). -/
def writeState (fs : StateFs) (cwd : String) (state : PersistedState) (statePath : String) :
    StateFs :=
  objSet fs (pathResolve cwd statePath) (some (jnormalize (stateToJValue state)))

/-! ### Helper lemmas about the JS-object model -/

theorem objGet_objSet_self (o : List (String × α)) (k : String) (v : α) :
    objGet (objSet o k v) k = some v := by
  induction o with
  | nil => simp [objSet, objGet]
  | cons kv rest ih =>
    obtain ⟨k', v'⟩ := kv
    by_cases h : k' = k
    · simp [objSet, objGet, h]
    · simp [objSet, objGet, h, ih]

theorem objGet_objSet_ne (o : List (String × α)) (k k' : String) (v : α) (h : k' ≠ k) :
    objGet (objSet o k v) k' = objGet o k' := by
  induction o with
  | nil => simp [objSet, objGet, Ne.symm h]
  | cons kv rest ih =>
    obtain ⟨k0, v0⟩ := kv
    by_cases h0 : k0 = k
    · subst h0
      simp [objSet, objGet, Ne.symm h]
    · by_cases h1 : k0 = k'
      · simp [objSet, objGet, h0, h1, h]
      · simp [objSet, objGet, h0, h1, ih]

theorem objSet_keys (o : List (String × α)) (k : String) (v : α) :
    (objSet o k v).map Prod.fst
      = if k ∈ o.map Prod.fst then o.map Prod.fst else o.map Prod.fst ++ [k] := by
  induction o with
  | nil => simp [objSet]
  | cons kv rest ih =>
    obtain ⟨k0, v0⟩ := kv
    by_cases h0 : k0 = k
    · simp [objSet, h0]
    · simp only [objSet, if_neg h0, List.map_cons, List.mem_cons]
      rw [ih]
      by_cases hm : k ∈ rest.map Prod.fst
      · simp [hm, Ne.symm h0]
      · simp [hm, Ne.symm h0]

theorem objSet_keys_nodup (o : List (String × α)) (k : String) (v : α)
    (h : (o.map Prod.fst).Nodup) : ((objSet o k v).map Prod.fst).Nodup := by
  rw [objSet_keys]
  by_cases hm : k ∈ o.map Prod.fst
  · simpa [hm] using h
  · simp only [if_neg hm]
    simpa [List.nodup_append, hm] using h

/-! ### C1: observer dispatch always returns one of the three statuses -/

/-- C1.  For every PlanItem, project root, filesystem, digest function and
probe outcome, the observer dispatch `observeState` returns an Observation
whose status is one of "healthy", "missing", "unknown".  The embedding is
a total function into `Observation` because the source function has no
throw site at all: `missing` and `unknown` are returned as ordinary
values, never thrown. -/
theorem observeState_status_total (fs : Fsys) (hashFn : String → String)
    (probe : String → Int → Bool) (item : PlanItem) (projectRoot : String) :
    (observeState fs hashFn probe item projectRoot).status = "healthy" ∨
    (observeState fs hashFn probe item projectRoot).status = "missing" ∨
    (observeState fs hashFn probe item projectRoot).status = "unknown" := by
  unfold observeState
  by_cases h1 : item.type = "package.deps"
  · simp only [if_pos h1]
    repeat' split
    all_goals simp
  · simp only [if_neg h1]
    by_cases h2 : item.type = "db.schema"
    · simp only [if_pos h2]
      repeat' split
      all_goals simp
    · simp only [if_neg h2]
      by_cases h3 : item.type = "env.export"
      · simp only [if_pos h3]
        repeat' split
        all_goals simp
      · simp only [if_neg h3]
        by_cases h4 : item.type = "env.inherit"
        · simp only [if_pos h4]
          repeat' split
          all_goals simp
        · simp only [if_neg h4]
          by_cases h5 : item.type = "process.http"
          · simp only [if_pos h5]
            repeat' split
            all_goals simp
          · simp only [if_neg h5]
            simp

/-! ### C9: summary counts always partition the result list -/

theorem summarize_foldl_total (results : List ResultItem) (s : Summary) :
    (results.foldl summarizeStep s).total = s.total := by
  induction results generalizing s with
  | nil => rfl
  | cons r rest ih =>
    simp only [List.foldl_cons]
    rw [ih]
    unfold summarizeStep
    repeat' split
    all_goals rfl

theorem summarize_foldl_sum (results : List ResultItem) (s : Summary) :
    (results.foldl summarizeStep s).healthy + (results.foldl summarizeStep s).missing
        + (results.foldl summarizeStep s).unknown
      = s.healthy + s.missing + s.unknown + results.length := by
  induction results generalizing s with
  | nil => simp
  | cons r rest ih =>
    simp only [List.foldl_cons, List.length_cons]
    rw [ih]
    unfold summarizeStep
    repeat' split
    all_goals simp
    all_goals omega

theorem summarize_foldl_unknown (results : List ResultItem) (s : Summary) :
    (results.foldl summarizeStep s).unknown
      = s.unknown + results.countP
          (fun r => !(r.observation.status == "healthy") && !(r.observation.status == "missing")) := by
  induction results generalizing s with
  | nil => simp
  | cons r rest ih =>
    simp only [List.foldl_cons, List.countP_cons]
    rw [ih]
    unfold summarizeStep
    by_cases h1 : r.observation.status = "healthy"
    · simp [h1]
    · by_cases h2 : r.observation.status = "missing"
      · simp [h1, h2]
      · simp [h1, h2]
        omega

/-- C9.  For every result list, even one whose statuses lie outside the
three-value enumeration, `summarizeResults` counts every status that is
neither "healthy" nor "missing" in the unknown bucket, and
healthy + missing + unknown = total = length of the list. -/
theorem summarizeResults_invariant (results : List ResultItem) :
    (summarizeResults results).healthy + (summarizeResults results).missing
        + (summarizeResults results).unknown = (summarizeResults results).total
    ∧ (summarizeResults results).total = results.length
    ∧ (summarizeResults results).unknown
        = results.countP
            (fun r => !(r.observation.status == "healthy")
              && !(r.observation.status == "missing")) := by
  unfold summarizeResults
  refine ⟨?_, rfl, ?_⟩
  · have h := summarize_foldl_sum results { healthy := 0, missing := 0, unknown := 0, total := 0 }
    simpa using h
  · have h := summarize_foldl_unknown results { healthy := 0, missing := 0, unknown := 0, total := 0 }
    simpa using h

/-! ### C4 and C10: intent-name resolution -/

/-- Concrete manifest whose `defaultIntent` names an intent that is not
declared under `intents`. -/
def mDangling : Manifest :=
  { services := [], intents := [("alpha", {}), ("beta", {})], defaultIntent := some "ghost" }

/-- C4 counterexample.  The claim says default resolution selects "the
manifest's explicit defaultIntent field"; on `mDangling` that field is
"ghost", yet the code returns "alpha" (the first declared intent, since no
intent is named "feature"), because the default is only honoured when it
names a declared intent. -/
theorem resolveIntentName_defaultIntent_cex :
    resolveIntentName mDangling none = .ok "alpha"
    ∧ resolveIntentName mDangling none ≠ .ok "ghost" := by
  constructor
  · rfl
  · intro h
    have h2 : (Except.ok "alpha" : Except EngineError String) = .ok "ghost" :=
      (show resolveIntentName mDangling none = .ok "alpha" from rfl).symm.trans h
    injection h2 with h3
    exact absurd h3 (by decide)

/-- C4 (amended).  A supplied non-empty intent name is selected iff
declared, else resolution fails with IntentNotFound; with no name (or an
empty one, which JS truthiness treats the same), resolution selects the
manifest's defaultIntent field when it is a non-empty name of a declared
intent, else the intent literally named "feature" when declared, else the
first declared intent in order, else fails with NoIntents. -/
theorem resolveIntentName_amended (m : Manifest) :
    (∀ n, n ≠ "" → (objGet m.intents n).isSome → resolveIntentName m (some n) = .ok n)
    ∧ (∀ n, n ≠ "" → objGet m.intents n = none →
        resolveIntentName m (some n) = .error (.intentNotFound n))
    ∧ (∀ d, m.defaultIntent = some d → d ≠ "" → (objGet m.intents d).isSome →
        resolveIntentName m none = .ok d)
    ∧ ((∀ d, m.defaultIntent = some d → d = "" ∨ objGet m.intents d = none) →
        ((objGet m.intents "feature").isSome → resolveIntentName m none = .ok "feature")
        ∧ (objGet m.intents "feature" = none → m.intents = [] →
            resolveIntentName m none = .error .noIntents)
        ∧ ∀ k i rest, objGet m.intents "feature" = none → m.intents = (k, i) :: rest →
            resolveIntentName m none = .ok k) := by
  refine ⟨?_, ?_, ?_, ?_⟩
  · intro n hne hsome
    simp [resolveIntentName, hne, hsome]
  · intro n hne hnone
    simp [resolveIntentName, hne, hnone]
  · intro d hd hne hsome
    simp [resolveIntentName, resolveDefaultIntent, hd, hne, hsome]
  · intro hdang
    have hvd : (match m.defaultIntent with
        | some d => if d ≠ "" ∧ (objGet m.intents d).isSome then some d else none
        | none => none) = (none : Option String) := by
      cases hd : m.defaultIntent with
      | none => rfl
      | some d =>
        rcases hdang d hd with h | h
        · simp [h]
        · simp [h]
    refine ⟨?_, ?_, ?_⟩
    · intro hfeat
      simp [resolveIntentName, resolveDefaultIntent, hvd, hfeat]
    · intro hfeat hnil
      simp only [resolveIntentName, resolveDefaultIntent, hvd]
      rw [hnil] at hfeat
      simp [hfeat, hnil]
    · intro k i rest hfeat hcons
      simp only [resolveIntentName, resolveDefaultIntent, hvd]
      rw [hcons] at hfeat
      simp [hfeat, hcons]

/-- Witness for the amended C4, at the concrete manifest `mDangling`. -/
theorem resolveIntentName_amended_witness :
    resolveIntentName mDangling none = .ok "alpha" := by
  have h := (resolveIntentName_amended mDangling).2.2.2
  have hdang : ∀ d, mDangling.defaultIntent = some d →
      d = "" ∨ objGet mDangling.intents d = none := by
    intro d hd
    right
    have hg : "ghost" = d := Option.some.inj hd
    subst hg
    rfl
  exact (h hdang).2.2 "alpha" {} [("beta", {})] rfl rfl

/-- C10.  When the defaultIntent field names an undeclared intent, the
no-name resolution silently ignores it and falls through to the "feature"
intent or the first declared intent (or NoIntents), and never fails with
IntentNotFound. -/
theorem resolveIntentName_dangling_default (m : Manifest) (d : String)
    (hd : m.defaultIntent = some d) (hnone : objGet m.intents d = none) :
    resolveIntentName m none
      = (if (objGet m.intents "feature").isSome then .ok "feature"
         else match m.intents with
           | (k, _) :: _ => .ok k
           | [] => .error .noIntents)
    ∧ ∀ e, resolveIntentName m none ≠ .error (.intentNotFound e) := by
  have hvd : (match m.defaultIntent with
      | some dd => if dd ≠ "" ∧ (objGet m.intents dd).isSome then some dd else none
      | none => none) = (none : Option String) := by
    rw [hd]
    simp [hnone]
  constructor
  · simp [resolveIntentName, resolveDefaultIntent, hvd]
  · intro e h
    simp only [resolveIntentName, resolveDefaultIntent, hvd] at h
    split at h
    · simp_all
    · split at h <;> simp_all

/-- Witness for C10 at the concrete manifest `mDangling`. -/
theorem resolveIntentName_dangling_default_witness :
    resolveIntentName mDangling none ≠ .error (.intentNotFound "ghost") :=
  (resolveIntentName_dangling_default mDangling "ghost" rfl rfl).2 "ghost"

/-! ### C8: the db.schema observer -/

/-- The path a `db.schema` observation resolves: `root/source` relative to
the service root under the project root. -/
def schemaPathOf (item : PlanItem) (projectRoot : String) (s : String) : String :=
  pathResolve (pathResolve projectRoot (jsOrDefault item.service.root ".")) s

theorem hashFile_isSome (fs : Fsys) (hashFn : String → String) (p : String) :
    (hashFile fs hashFn p).isSome = (objGet fs p).isSome := by
  unfold hashFile
  cases objGet fs p <;> rfl

/-- C8.  For a `db.schema` plan item the observation is `unknown` exactly
when the config's `source` is unset (absent or empty, both falsy in JS),
and otherwise `missing` or `healthy` according to whether the file at
root/source exists, with checksum evidence when it exists and an
`undefined` checksum when it does not; the unknown and missing outcomes
are distinct records and never collapse into one another. -/
theorem observeState_db_schema_spec (fs : Fsys) (hashFn : String → String)
    (probe : String → Int → Bool) (item : PlanItem) (projectRoot : String)
    (htype : item.type = "db.schema") :
    (truthyStr item.config.source = false →
      observeState fs hashFn probe item projectRoot
        = { status := "unknown", evidence := .obj [("reason", .str "no source defined")] })
    ∧ ∀ s, item.config.source = some s → s ≠ "" →
        (∀ chk, hashFile fs hashFn (schemaPathOf item projectRoot s) = some chk →
          observeState fs hashFn probe item projectRoot
            = { status := "healthy",
                evidence := .obj
                  [("source", .str (schemaPathOf item projectRoot s)),
                   ("exists", .bool true), ("checksum", .str chk)] })
        ∧ (hashFile fs hashFn (schemaPathOf item projectRoot s) = none →
          observeState fs hashFn probe item projectRoot
            = { status := "missing",
                evidence := .obj
                  [("source", .str (schemaPathOf item projectRoot s)),
                   ("exists", .bool false), ("checksum", .undefined)] }) := by
  constructor
  · intro hfalsy
    cases hsrc : item.config.source with
    | none =>
      simp only [observeState, htype]
      simp [hsrc]
    | some s =>
      have hs : s = "" := by
        rw [hsrc] at hfalsy
        simpa [truthyStr] using hfalsy
      subst hs
      simp only [observeState, htype]
      simp [hsrc]
  · intro s hsrc hne
    have hobj : ∀ chk, hashFile fs hashFn (schemaPathOf item projectRoot s) = some chk →
        (objGet fs (schemaPathOf item projectRoot s)).isSome = true := by
      intro chk hchk
      have h := hashFile_isSome fs hashFn (schemaPathOf item projectRoot s)
      rw [hchk] at h
      exact h.symm
    have hobj2 : hashFile fs hashFn (schemaPathOf item projectRoot s) = none →
        (objGet fs (schemaPathOf item projectRoot s)).isSome = false := by
      intro hchk
      have h := hashFile_isSome fs hashFn (schemaPathOf item projectRoot s)
      rw [hchk] at h
      exact h.symm
    constructor
    · intro chk hchk
      simp only [observeState, htype]
      simp only [hsrc]
      simp [hne, schemaPathOf] at hobj ⊢
      rw [hobj chk hchk]
      simp [schemaPathOf] at hchk
      rw [hchk]
      have h1 := hobj chk hchk
      refine ⟨?_, rfl, rfl⟩
      intro hnone
      rw [hnone] at h1
      simp at h1
    · intro hchk
      simp only [observeState, htype]
      simp only [hsrc]
      simp [hne, schemaPathOf] at hobj2 ⊢
      rw [hobj2 hchk]
      simp [schemaPathOf] at hchk
      rw [hchk]
      exact ⟨rfl, rfl⟩

/-- A concrete `db.schema` plan item for the C8 witness. -/
def itemSchema : PlanItem :=
  { serviceName := "api", stateId := "schema", type := "db.schema",
    config := { type := some "db.schema", source := some "db/schema.sql" },
    service := { root := some "api" } }

/-- Witness for C8: at a concrete item, filesystem and digest, the
missing and unknown branches are exercised through the theorem. -/
theorem observeState_db_schema_spec_witness :
    observeState [] (fun _ => "h0") (fun _ _ => false) itemSchema "/proj"
      = { status := "missing",
          evidence := .obj
            [("source", .str "/proj/api/db/schema.sql"),
             ("exists", .bool false), ("checksum", .undefined)] } := by
  have h := (observeState_db_schema_spec [] (fun _ => "h0") (fun _ _ => false)
    itemSchema "/proj" rfl).2 "db/schema.sql" rfl (by decide)
  exact h.2 rfl

/-! ### C6: state write/load round trip -/

/-- Concrete persisted state whose evidence holds a JS `undefined` value,
exactly the shape the db.schema observer produces for a missing file
(its evidence is built with an undefined-valued checksum field). -/
def sUndef : PersistedState :=
  { manifestHash := none,
    observations := [("api:schema",
      { status := "missing",
        evidence := .obj [("exists", .bool false), ("checksum", .undefined)],
        lastValidatedAt := "t0", lastAppliedAt := none })] }

/-- C6 counterexample.  Writing `sUndef` and loading it back yields the
JSON normalization of the state, in which `JSON.stringify` has dropped
the undefined-valued checksum field of the evidence; the reloaded value
is therefore not equal to the written state. -/
theorem stateRoundTrip_cex :
    loadState (writeState [] "/root" sUndef "st.json") "/root" "st.json"
      = .ok (jnormalize (stateToJValue sUndef))
    ∧ jnormalize (stateToJValue sUndef) ≠ stateToJValue sUndef
    ∧ loadState (writeState [] "/root" sUndef "st.json") "/root" "st.json"
      ≠ .ok (stateToJValue sUndef) := by
  refine ⟨rfl, by decide, ?_⟩
  intro h
  have h2 : (Except.ok (jnormalize (stateToJValue sUndef)) : Except EngineError JValue)
      = .ok (stateToJValue sUndef) :=
    (show loadState (writeState [] "/root" sUndef "st.json") "/root" "st.json"
        = .ok (jnormalize (stateToJValue sUndef)) from rfl).symm.trans h
  injection h2 with h3
  exact absurd h3 (by decide)

/-- C6 (amended).  For every state filesystem, working directory, path and
persisted state, writing the state and loading it back yields the JSON
normalization of the state (undefined-valued object fields dropped,
undefined array elements turned to null); in particular it yields a value
equal to the state exactly when the state's encoding is already
JSON-normal, e.g. contains no undefined values. -/
theorem stateRoundTrip_amended (fs : StateFs) (cwd statePath : String) (s : PersistedState) :
    loadState (writeState fs cwd s statePath) cwd statePath
      = .ok (jnormalize (stateToJValue s))
    ∧ (jnormalize (stateToJValue s) = stateToJValue s →
        loadState (writeState fs cwd s statePath) cwd statePath = .ok (stateToJValue s)) := by
  have h1 : loadState (writeState fs cwd s statePath) cwd statePath
      = .ok (jnormalize (stateToJValue s)) := by
    unfold loadState writeState
    simp only []
    rw [objGet_objSet_self]
  exact ⟨h1, fun hn => by rw [h1, hn]⟩

/-- A persisted state with no undefined values, for the C6 witness. -/
def sClean : PersistedState :=
  { manifestHash := some "sha256:abc",
    observations := [("api:deps",
      { status := "healthy",
        evidence := .obj [("checksum", .str "sha256:xyz")],
        lastValidatedAt := "t1", lastAppliedAt := some "t0" })] }

/-- Witness for the amended C6 at a concrete JSON-normal state. -/
theorem stateRoundTrip_amended_witness :
    loadState (writeState [] "/root" sClean "st.json") "/root" "st.json"
      = .ok (stateToJValue sClean) :=
  (stateRoundTrip_amended [] "/root" "st.json" sClean).2 (by decide)

/-! ### C2: updateState builds a wholly new observation map -/

/-- The last result in the list carrying a given "service:state" key (the
record a later JS assignment `next.observations[key] = ...` leaves in
place). -/
def lastWithKey (k : String) : List ResultItem → Option ResultItem
  | [] => none
  | r :: rest =>
    match lastWithKey k rest with
    | some r' => some r'
    | none => if resultKey r = k then some r else none

theorem lastWithKey_eq_key (k : String) (results : List ResultItem) (r : ResultItem)
    (h : lastWithKey k results = some r) : resultKey r = k := by
  induction results with
  | nil => exact absurd h (by simp [lastWithKey])
  | cons r0 rest ih =>
    simp only [lastWithKey] at h
    cases hlast : lastWithKey k rest with
    | some r' =>
      rw [hlast] at h
      exact ih (hlast.trans (by injection h with h2; rw [h2]))
    | none =>
      rw [hlast] at h
      by_cases hk : resultKey r0 = k
      · rw [if_pos hk] at h
        injection h with h2
        rw [← h2]
        exact hk
      · rw [if_neg hk] at h
        exact absurd h (by simp)

theorem updateState_foldl_lookup (f : ResultItem → ObsRecord) (results : List ResultItem)
    (acc : List (String × ObsRecord)) (k : String) :
    objGet (results.foldl (fun a r => objSet a (resultKey r) (f r)) acc) k
      = match lastWithKey k results with
        | some r => some (f r)
        | none => objGet acc k := by
  induction results generalizing acc with
  | nil => rfl
  | cons r rest ih =>
    simp only [List.foldl_cons, lastWithKey]
    rw [ih]
    cases hlast : lastWithKey k rest with
    | some r' => rfl
    | none =>
      by_cases hk : resultKey r = k
      · rw [hk, objGet_objSet_self]
        simp [hk]
      · rw [objGet_objSet_ne acc (resultKey r) k (f r) (fun h => hk h.symm)]
        simp [hk]

theorem updateState_foldl_nodup (f : ResultItem → ObsRecord) (results : List ResultItem)
    (acc : List (String × ObsRecord)) (h : (acc.map Prod.fst).Nodup) :
    ((results.foldl (fun a r => objSet a (resultKey r) (f r)) acc).map Prod.fst).Nodup := by
  induction results generalizing acc with
  | nil => exact h
  | cons r rest ih => exact ih _ (objSet_keys_nodup _ _ _ h)

theorem updateState_foldl_mem (f : ResultItem → ObsRecord) (results : List ResultItem)
    (acc : List (String × ObsRecord)) (k : String) :
    (k ∈ (results.foldl (fun a r => objSet a (resultKey r) (f r)) acc).map Prod.fst)
      ↔ (k ∈ acc.map Prod.fst ∨ k ∈ results.map resultKey) := by
  induction results generalizing acc with
  | nil => simp
  | cons r rest ih =>
    simp only [List.foldl_cons, List.map_cons, List.mem_cons]
    rw [ih, objSet_keys]
    by_cases hm : resultKey r ∈ acc.map Prod.fst
    · rw [if_pos hm]
      constructor
      · rintro (h | h)
        · exact Or.inl h
        · exact Or.inr (Or.inr h)
      · rintro (h | h | h)
        · exact Or.inl h
        · exact Or.inl (h ▸ hm)
        · exact Or.inr h
    · rw [if_neg hm]
      simp only [List.mem_append, List.mem_singleton]
      tauto

/-- C2.  `updateState(previous, results, manifestHash)` returns the given
hash, and an observation map with exactly one entry per "service:state"
key occurring in `results` (keys only in `previous` are dropped); the
record stored under a key comes from the last result with that key:
status and evidence from the new observation, `lastValidatedAt` stamped
with the current time, and `lastAppliedAt` carried over from the previous
record of the same key when one existed, else null. -/
theorem updateState_spec (existing : PersistedState) (results : List ResultItem)
    (manifestHash : Option String) (now : String) :
    (updateState existing results manifestHash now).manifestHash = manifestHash
    ∧ ((updateState existing results manifestHash now).observations.map Prod.fst).Nodup
    ∧ (∀ k, k ∈ (updateState existing results manifestHash now).observations.map Prod.fst
        ↔ k ∈ results.map resultKey)
    ∧ (∀ k, objGet (updateState existing results manifestHash now).observations k
        = match lastWithKey k results with
          | some r => some
              { status := r.observation.status,
                evidence := r.observation.evidence,
                lastValidatedAt := now,
                lastAppliedAt :=
                  match objGet existing.observations k with
                  | some p => p.lastAppliedAt
                  | none => none }
          | none => none) := by
  refine ⟨rfl, ?_, ?_, ?_⟩
  · exact updateState_foldl_nodup _ _ _ (by simp)
  · intro k
    have h := updateState_foldl_mem (mkObsRecord existing now) results [] k
    simpa using h
  · intro k
    have h := updateState_foldl_lookup (mkObsRecord existing now) results [] k
    cases hlast : lastWithKey k results with
    | none =>
      rw [hlast] at h
      simpa using h
    | some r =>
      rw [hlast] at h
      have hk : resultKey r = k := lastWithKey_eq_key k results r hlast
      rw [show (updateState existing results manifestHash now).observations
          = results.foldl (fun a r => objSet a (resultKey r) (mkObsRecord existing now r)) []
          from rfl, h]
      simp only [mkObsRecord, hk]

/-! ### C5: graph edge derivation and deduplication -/

/-- The dedup key of an edge record. -/
def keyOf (e : Edge) : String :=
  edgeKey e.from_ e.to_ e.reason

/-- The edges one service contributes, before deduplication: one
`requires` edge per required service name, one `consumes VAR` edge per
environment binding whose source names a provider. -/
def serviceDerivedEdges (serviceName : String) (service : Service) : List Edge :=
  (((service.requires.bind (·.services)).getD []).map
    (fun required => { from_ := serviceName, to_ := required, reason := "requires" }))
  ++ (((service.consumes.bind (·.env)).getD []).filterMap
    (fun kv => match kv.2.bind (·.from_) with
      | some f =>
        if strContains f '.'
          then some { from_ := serviceName, to_ := providerOf f,
                      reason := "consumes " ++ kv.1 }
          else none
      | none => none))

/-- All edges the manifest derives, in order, before deduplication. -/
def derivedEdges (m : Manifest) : List Edge :=
  m.services.flatMap (fun kv => serviceDerivedEdges kv.1 kv.2)

/-- One deduplicating step over a derived edge. -/
def addEdgeStep (a : List Edge × List String) (e : Edge) : List Edge × List String :=
  addEdge a e.from_ e.to_ e.reason

theorem foldl_filterMap_addEdge (g : α → Option Edge) (l : List α)
    (init : List Edge × List String) :
    (l.filterMap g).foldl addEdgeStep init
      = l.foldl (fun a x => match g x with | some e => addEdgeStep a e | none => a) init := by
  induction l generalizing init with
  | nil => rfl
  | cons x rest ih =>
    cases hx : g x with
    | none => simp [List.filterMap_cons, hx, ih]
    | some e => simp [List.filterMap_cons, hx, ih]

theorem serviceEdges_eq_foldl (acc : List Edge × List String) (serviceName : String)
    (service : Service) :
    serviceEdges acc serviceName service
      = (serviceDerivedEdges serviceName service).foldl addEdgeStep acc := by
  unfold serviceEdges serviceDerivedEdges
  rw [List.foldl_append, List.foldl_map, foldl_filterMap_addEdge]
  apply List.foldl_ext
  intro a kv _
  cases kv.2.bind (fun b => b.from_) with
  | none => rfl
  | some f =>
    by_cases hf : strContains f '.'
    · simp [hf, addEdgeStep]
    · simp [hf]

theorem buildGraph_eq_foldl_aux (services : List (String × Service))
    (acc : List Edge × List String) :
    services.foldl (fun a kv => serviceEdges a kv.1 kv.2) acc
      = (services.flatMap (fun kv => serviceDerivedEdges kv.1 kv.2)).foldl addEdgeStep acc := by
  induction services generalizing acc with
  | nil => rfl
  | cons kv rest ih =>
    simp only [List.foldl_cons, List.flatMap_cons, List.foldl_append]
    rw [serviceEdges_eq_foldl, ih]

theorem buildGraph_eq_foldl (m : Manifest) :
    buildGraph m = ((derivedEdges m).foldl addEdgeStep ([], [])).1 := by
  unfold buildGraph derivedEdges
  rw [buildGraph_eq_foldl_aux]

/-- The seen set lists exactly the keys of the accumulated edges. -/
def accInv (acc : List Edge × List String) : Prop :=
  ∀ k, k ∈ acc.2 ↔ k ∈ acc.1.map keyOf

theorem addEdgeStep_skip (acc : List Edge × List String) (e : Edge)
    (hk : keyOf e ∈ acc.2) : addEdgeStep acc e = acc := by
  unfold addEdgeStep addEdge
  simp only []
  rw [if_pos (show edgeKey e.from_ e.to_ e.reason ∈ acc.2 from hk)]

theorem addEdgeStep_push (acc : List Edge × List String) (e : Edge)
    (hk : keyOf e ∉ acc.2) : addEdgeStep acc e = (acc.1 ++ [e], keyOf e :: acc.2) := by
  unfold addEdgeStep addEdge
  simp only []
  rw [if_neg (show edgeKey e.from_ e.to_ e.reason ∉ acc.2 from hk)]
  rfl

theorem accInv_push (acc : List Edge × List String) (e : Edge) (hinv : accInv acc) :
    accInv (acc.1 ++ [e], keyOf e :: acc.2) := by
  intro k
  simp only [List.mem_cons, List.map_append, List.mem_append, List.map_cons, List.map_nil,
    List.mem_singleton]
  rw [hinv k]
  tauto

theorem foldAdd_nodup (es : List Edge) (acc : List Edge × List String)
    (hinv : accInv acc) (hnd : (acc.1.map keyOf).Nodup) :
    accInv (es.foldl addEdgeStep acc) ∧ ((es.foldl addEdgeStep acc).1.map keyOf).Nodup := by
  induction es generalizing acc with
  | nil => exact ⟨hinv, hnd⟩
  | cons e rest ih =>
    simp only [List.foldl_cons]
    by_cases hk : keyOf e ∈ acc.2
    · rw [addEdgeStep_skip acc e hk]
      exact ih acc hinv hnd
    · rw [addEdgeStep_push acc e hk]
      refine ih _ (accInv_push acc e hinv) ?_
      have hknot : keyOf e ∉ acc.1.map keyOf := fun hmem => hk ((hinv (keyOf e)).mpr hmem)
      simp only [List.map_append, List.map_cons, List.map_nil]
      rw [List.nodup_append]
      exact ⟨hnd, List.nodup_singleton _, by simpa using hknot⟩

theorem foldAdd_mem (es : List Edge) (acc : List Edge × List String)
    (hinv : accInv acc)
    (hinj : ∀ e1, e1 ∈ acc.1 ++ es → ∀ e2, e2 ∈ acc.1 ++ es → keyOf e1 = keyOf e2 → e1 = e2) :
    ∀ e, e ∈ (es.foldl addEdgeStep acc).1 ↔ e ∈ acc.1 ∨ e ∈ es := by
  induction es generalizing acc with
  | nil => simp
  | cons e0 rest ih =>
    simp only [List.foldl_cons]
    by_cases hk : keyOf e0 ∈ acc.2
    · rw [addEdgeStep_skip acc e0 hk]
      have he0 : e0 ∈ acc.1 := by
        have hmem : keyOf e0 ∈ acc.1.map keyOf := (hinv (keyOf e0)).mp hk
        obtain ⟨e', he', hkey⟩ := List.mem_map.mp hmem
        have : e' = e0 := hinj e' (List.mem_append_left _ he') e0
          (List.mem_append_right _ (List.mem_cons_self _ _)) hkey
        exact this ▸ he'
      have hinj' : ∀ e1, e1 ∈ acc.1 ++ rest → ∀ e2, e2 ∈ acc.1 ++ rest →
          keyOf e1 = keyOf e2 → e1 = e2 := by
        intro e1 h1 e2 h2
        refine hinj e1 ?_ e2 ?_
        · rcases List.mem_append.mp h1 with h | h
          · exact List.mem_append_left _ h
          · exact List.mem_append_right _ (List.mem_cons_of_mem _ h)
        · rcases List.mem_append.mp h2 with h | h
          · exact List.mem_append_left _ h
          · exact List.mem_append_right _ (List.mem_cons_of_mem _ h)
      intro e
      rw [ih acc hinv hinj' e]
      constructor
      · rintro (h | h)
        · exact Or.inl h
        · exact Or.inr (List.mem_cons_of_mem _ h)
      · rintro (h | h)
        · exact Or.inl h
        · rcases List.mem_cons.mp h with h | h
          · exact Or.inl (h ▸ he0)
          · exact Or.inr h
    · rw [addEdgeStep_push acc e0 hk]
      have hinj' : ∀ e1, e1 ∈ (acc.1 ++ [e0]) ++ rest → ∀ e2, e2 ∈ (acc.1 ++ [e0]) ++ rest →
          keyOf e1 = keyOf e2 → e1 = e2 := by
        intro e1 h1 e2 h2
        refine hinj e1 ?_ e2 ?_
        · rcases List.mem_append.mp h1 with h | h
          · rcases List.mem_append.mp h with h | h
            · exact List.mem_append_left _ h
            · exact List.mem_append_right _ (by simpa using Or.inl (List.mem_singleton.mp h))
          · exact List.mem_append_right _ (List.mem_cons_of_mem _ h)
        · rcases List.mem_append.mp h2 with h | h
          · rcases List.mem_append.mp h with h | h
            · exact List.mem_append_left _ h
            · exact List.mem_append_right _ (by simpa using Or.inl (List.mem_singleton.mp h))
          · exact List.mem_append_right _ (List.mem_cons_of_mem _ h)
      intro e
      rw [ih _ (accInv_push acc e0 hinv) hinj' e]
      simp only [List.mem_append, List.mem_singleton, List.mem_cons]
      tauto

/-- C5 (amended).  The graph derivation is pure, hence deterministic; each
edge record appears at most once in the output unconditionally; and
whenever no two distinct derived edges collide on the string key
"from->to:reason" (for instance whenever service names contain no "->"
and no ":"), every derived edge appears in the output, exactly once.  (In
general the key encoding can conflate distinct triples, see the
counterexample.) -/
theorem buildGraph_amended (m : Manifest) :
    (buildGraph m).Nodup
    ∧ buildGraph m = buildGraph m
    ∧ ((∀ e1, e1 ∈ derivedEdges m → ∀ e2, e2 ∈ derivedEdges m →
          keyOf e1 = keyOf e2 → e1 = e2) →
        (∀ e, e ∈ buildGraph m ↔ e ∈ derivedEdges m)
        ∧ ∀ e, e ∈ derivedEdges m → (buildGraph m).count e = 1) := by
  have hkeys : ((buildGraph m).map keyOf).Nodup := by
    rw [buildGraph_eq_foldl]
    exact (foldAdd_nodup (derivedEdges m) ([], []) (by intro k; simp) (by simp)).2
  have hnd : (buildGraph m).Nodup := hkeys.of_map keyOf
  refine ⟨hnd, rfl, ?_⟩
  intro hinj
  have hmem : ∀ e, e ∈ buildGraph m ↔ e ∈ derivedEdges m := by
    intro e
    rw [buildGraph_eq_foldl]
    have h := foldAdd_mem (derivedEdges m) ([], []) (by intro k; simp)
      (by simpa using hinj) e
    simpa using h
  refine ⟨hmem, ?_⟩
  intro e he
  exact List.count_eq_one_of_mem hnd ((hmem e).mpr he)

/-- Manifest whose service names contain the separator "->": two distinct
derived triples share the dedup key "a->b->c:requires". -/
def mCollide : Manifest :=
  { services := [("a->b", { requires := some { services := some ["c"] } }),
                 ("a", { requires := some { services := some ["b->c"] } })],
    intents := [] }

/-- C5 counterexample.  On `mCollide` the manifest derives two distinct
(from, to, reason) triples, but the second is suppressed because its
dedup key string collides with the first, so it appears zero times in the
output, not exactly once. -/
theorem buildGraph_dedup_cex :
    buildGraph mCollide = [{ from_ := "a->b", to_ := "c", reason := "requires" }]
    ∧ ({ from_ := "a", to_ := "b->c", reason := "requires" } : Edge) ∈ derivedEdges mCollide
    ∧ ({ from_ := "a", to_ := "b->c", reason := "requires" } : Edge) ∉ buildGraph mCollide := by
  have hde : derivedEdges mCollide
      = [{ from_ := "a->b", to_ := "c", reason := "requires" },
         { from_ := "a", to_ := "b->c", reason := "requires" }] := rfl
  have hbg : buildGraph mCollide = [{ from_ := "a->b", to_ := "c", reason := "requires" }] := rfl
  refine ⟨rfl, ?_, ?_⟩
  · rw [hde]
    simp
  · rw [hbg]
    simp

/-- Manifest with a duplicated `requires` entry and two distinct consumes
reasons between the same pair, for the C5 witness. -/
def mGraphW : Manifest :=
  { services := [("a",
      { requires := some { services := some ["b", "b"] },
        consumes := some
          { env := some
              [("X", some { from_ := some "b.X" }),
               ("Y", some { from_ := some "b.X" })] } })],
    intents := [] }

/-- Witness for the amended C5: on `mGraphW` the duplicated requires edge
appears once, and the two consumes edges with distinct reasons both
appear, once each. -/
theorem buildGraph_amended_witness :
    (buildGraph mGraphW).count { from_ := "a", to_ := "b", reason := "requires" } = 1
    ∧ (buildGraph mGraphW).count { from_ := "a", to_ := "b", reason := "consumes X" } = 1
    ∧ (buildGraph mGraphW).count { from_ := "a", to_ := "b", reason := "consumes Y" } = 1 := by
  have hde : derivedEdges mGraphW
      = [{ from_ := "a", to_ := "b", reason := "requires" },
         { from_ := "a", to_ := "b", reason := "requires" },
         { from_ := "a", to_ := "b", reason := "consumes X" },
         { from_ := "a", to_ := "b", reason := "consumes Y" }] := rfl
  have h := (buildGraph_amended mGraphW).2.2 (by rw [hde]; decide)
  exact ⟨h.2 _ (by rw [hde]; simp), h.2 _ (by rw [hde]; simp), h.2 _ (by rw [hde]; simp)⟩

/-! ### C3: one observation per plan item; key uniqueness -/

theorem validatePlan_length (fs : Fsys) (hashFn : String → String)
    (probe : String → Int → Bool) (plan : List PlanItem) (root : String) :
    (validatePlan fs hashFn probe plan root).length = plan.length := by
  unfold validatePlan
  exact List.length_map _ _

theorem buildPlanStates_ok_pairs (serviceName : String) (svc : Service)
    (stateIds : List String) (items : List PlanItem)
    (h : buildPlanStates serviceName svc stateIds = .ok items) :
    items.map (fun it => (it.serviceName, it.stateId))
      = stateIds.map (fun st => (serviceName, st)) := by
  induction stateIds generalizing items with
  | nil =>
    simp only [buildPlanStates] at h
    injection h with h2
    rw [← h2]
    rfl
  | cons st rest ih =>
    simp only [buildPlanStates] at h
    cases hlook : objGet (svc.states.getD []) st with
    | none =>
      rw [hlook] at h
      exact absurd h (by simp)
    | some sd =>
      rw [hlook] at h
      dsimp only [] at h
      cases htype : sd.type with
      | none =>
        rw [htype] at h
        exact absurd h (by simp)
      | some t =>
        rw [htype] at h
        dsimp only [] at h
        by_cases ht : t = ""
        · rw [if_pos ht] at h
          exact absurd h (by simp)
        · rw [if_neg ht] at h
          cases hrest : buildPlanStates serviceName svc rest with
          | error e =>
            rw [hrest] at h
            exact absurd h (by simp [Except.map])
          | ok items' =>
            rw [hrest] at h
            simp only [Except.map] at h
            injection h with h2
            rw [← h2]
            simp only [List.map_cons]
            rw [ih items' hrest]

theorem buildPlanLoop_ok_pairs (m : Manifest) (entries : List (String × DesiredSvc))
    (plan : List PlanItem) (h : buildPlanLoop m entries = .ok plan) :
    plan.map (fun it => (it.serviceName, it.stateId))
      = entries.flatMap (fun p => (p.2.states.getD []).map (fun st => (p.1, st))) := by
  induction entries generalizing plan with
  | nil =>
    simp only [buildPlanLoop] at h
    injection h with h2
    rw [← h2]
    rfl
  | cons p rest ih =>
    obtain ⟨n, d⟩ := p
    simp only [buildPlanLoop] at h
    cases hlook : objGet m.services n with
    | none =>
      rw [hlook] at h
      exact absurd h (by simp)
    | some svc =>
      rw [hlook] at h
      dsimp only [] at h
      cases hst : buildPlanStates n svc (d.states.getD []) with
      | error e =>
        rw [hst] at h
        exact absurd h (by simp)
      | ok items =>
        rw [hst] at h
        dsimp only [] at h
        cases hlp : buildPlanLoop m rest with
        | error e =>
          rw [hlp] at h
          exact absurd h (by simp [Except.map])
        | ok plan' =>
          rw [hlp] at h
          simp only [Except.map] at h
          injection h with h2
          rw [← h2]
          simp only [List.flatMap_cons, List.map_append]
          rw [buildPlanStates_ok_pairs n svc _ items hst, ih plan' hlp]

theorem pairs_flatMap_nodup (entries : List (String × DesiredSvc))
    (hkeys : (entries.map Prod.fst).Nodup)
    (hstates : ∀ p ∈ entries, (p.2.states.getD []).Nodup) :
    (entries.flatMap (fun p => (p.2.states.getD []).map (fun st => (p.1, st)))).Nodup := by
  induction entries with
  | nil => simp
  | cons p rest ih =>
    simp only [List.flatMap_cons]
    rw [List.nodup_append]
    simp only [List.map_cons, List.nodup_cons] at hkeys
    refine ⟨?_, ?_, ?_⟩
    · refine List.Nodup.map ?_ (hstates p (List.mem_cons_self _ _))
      intro a b hab
      simpa using hab
    · exact ih hkeys.2 (fun q hq => hstates q (List.mem_cons_of_mem _ hq))
    · intro a ha hb
      obtain ⟨st, _, hst⟩ := List.mem_map.mp ha
      obtain ⟨q, hq, haq⟩ := List.mem_flatMap.mp hb
      obtain ⟨st', _, hst'⟩ := List.mem_map.mp haq
      have h1 : p.1 = q.1 := by
        rw [← hst] at hst'
        exact (Prod.mk.injEq _ _ _ _ ▸ hst').1.symm
      exact hkeys.1 (h1 ▸ List.mem_map_of_mem Prod.fst hq)

theorem string_colon_inj (s1 t1 s2 t2 : String)
    (h1 : strContains s1 ':' = false) (h2 : strContains s2 ':' = false)
    (h : s1 ++ ":" ++ t1 = s2 ++ ":" ++ t2) : s1 = s2 ∧ t1 = t2 := by
  have hd : s1.data ++ ':' :: t1.data = s2.data ++ ':' :: t2.data := by
    have := congrArg String.data h
    simpa [String.data_append] using this
  have hm1 : ':' ∉ s1.data := by
    intro hmem
    rw [show strContains s1 ':' = s1.data.contains ':' from rfl] at h1
    rw [List.contains_eq_any_beq] at h1
    simp at h1
    exact h1 ':' hmem rfl
  have hm2 : ':' ∉ s2.data := by
    intro hmem
    rw [show strContains s2 ':' = s2.data.contains ':' from rfl] at h2
    rw [List.contains_eq_any_beq] at h2
    simp at h2
    exact h2 ':' hmem rfl
  have key : ∀ (l1 : List Char), ':' ∉ l1 → ∀ (l2 : List Char), ':' ∉ l2 →
      ∀ r1 r2, l1 ++ ':' :: r1 = l2 ++ ':' :: r2 → l1 = l2 ∧ r1 = r2 := by
    intro l1
    induction l1 with
    | nil =>
      intro _ l2 hl2 r1 r2 hh
      cases l2 with
      | nil => simpa using hh
      | cons c l2' =>
        simp only [List.nil_append, List.cons_append, List.cons.injEq] at hh
        exact absurd (by rw [hh.1]; exact List.mem_cons_self c l2') hl2
    | cons c l1' ih =>
      intro hl1 l2 hl2 r1 r2 hh
      cases l2 with
      | nil =>
        simp only [List.cons_append, List.nil_append, List.cons.injEq] at hh
        exact absurd (by rw [← hh.1]; exact List.mem_cons_self c l1') hl1
      | cons c2 l2' =>
        simp only [List.cons_append, List.cons.injEq] at hh
        have hrec := ih (fun hx => hl1 (List.mem_cons_of_mem _ hx)) l2'
          (fun hx => hl2 (List.mem_cons_of_mem _ hx)) r1 r2 hh.2
        exact ⟨by rw [hh.1, hrec.1], hrec.2⟩
  obtain ⟨hs, ht⟩ := key s1.data hm1 s2.data hm2 t1.data t2.data hd
  constructor
  · cases s1
    cases s2
    simp_all
  · cases t1
    cases t2
    simp_all

/-- C3 (amended).  For every plan built from an intent, validation yields
exactly one observation per plan item; the (service, state) pairs of the
results are unique provided each service's desired-states list is
duplicate-free (the desired.services keys are unique because JS object
keys are unique); and the "service:state" string keys are then unique as
well whenever the service names contain no colon (the key encoding can
otherwise conflate distinct pairs). -/
theorem validatePlan_spec_amended (m : Manifest) (intentName : String)
    (ds : List (String × DesiredSvc)) (plan : List PlanItem)
    (fs : Fsys) (hashFn : String → String) (probe : String → Int → Bool) (root : String)
    (hds : ((objGet m.intents intentName).bind (·.desired)).bind (·.services) = some ds)
    (hkeys : (ds.map Prod.fst).Nodup)
    (hstates : ∀ p ∈ ds, (p.2.states.getD []).Nodup)
    (hplan : buildPlan m intentName = .ok plan) :
    (validatePlan fs hashFn probe plan root).length = plan.length
    ∧ ((validatePlan fs hashFn probe plan root).map
        (fun r => (r.serviceName, r.stateId))).Nodup
    ∧ ((∀ p ∈ ds, strContains p.1 ':' = false) →
        ((validatePlan fs hashFn probe plan root).map resultKey).Nodup) := by
  have hloop : buildPlanLoop m ds = .ok plan := by
    unfold buildPlan at hplan
    rw [hds] at hplan
    exact hplan
  have hpairs := buildPlanLoop_ok_pairs m ds plan hloop
  have hv : (validatePlan fs hashFn probe plan root).map (fun r => (r.serviceName, r.stateId))
      = plan.map (fun it => (it.serviceName, it.stateId)) := by
    unfold validatePlan
    rw [List.map_map]
    rfl
  refine ⟨validatePlan_length fs hashFn probe plan root, ?_, ?_⟩
  · rw [hv, hpairs]
    exact pairs_flatMap_nodup ds hkeys hstates
  · intro hcolon
    have hk : (validatePlan fs hashFn probe plan root).map resultKey
        = (plan.map (fun it => (it.serviceName, it.stateId))).map
            (fun pr => pr.1 ++ ":" ++ pr.2) := by
      unfold validatePlan resultKey
      rw [List.map_map, List.map_map]
      rfl
    rw [hk, hpairs]
    have hfst : ∀ x ∈ ds.flatMap (fun p => (p.2.states.getD []).map (fun st => (p.1, st))),
        strContains x.1 ':' = false := by
      intro x hx
      obtain ⟨p, hp, hxp⟩ := List.mem_flatMap.mp hx
      obtain ⟨st, _, hst⟩ := List.mem_map.mp hxp
      rw [← hst]
      exact hcolon p hp
    refine List.Nodup.map_on ?_ (pairs_flatMap_nodup ds hkeys hstates)
    intro x hx y hy hxy
    obtain ⟨h1, h2⟩ := string_colon_inj x.1 x.2 y.1 y.2 (hfst x hx) (hfst y hy) hxy
    obtain ⟨x1, x2⟩ := x
    obtain ⟨y1, y2⟩ := y
    simp_all

/-- Manifest whose intent lists the same desired state twice. -/
def mDup : Manifest :=
  { services := [("api", { states := some [("deps", { type := some "package.deps" })] })],
    intents := [("i",
      { desired := some { services := some [("api", { states := some ["deps", "deps"] })] } })] }

/-- C3 counterexample.  On `mDup` the plan builder happily emits the same
(service, state) pair twice (the desired list is an array and is not
deduplicated), so the observation keys of the validated plan are not
unique. -/
theorem validatePlan_dup_keys_cex :
    (buildPlan mDup "i").map
        (fun plan => (validatePlan [] (fun _ => "") (fun _ _ => false) plan "/r").map resultKey)
      = .ok ["api:deps", "api:deps"]
    ∧ ¬ (["api:deps", "api:deps"] : List String).Nodup :=
  ⟨rfl, by decide⟩

/-- Manifest with a well-formed duplicate-free intent, for the C3
witness. -/
def mPlanW : Manifest :=
  { services := [("api",
      { root := some "api",
        states := some [("deps", { type := some "package.deps" }),
                        ("schema", { type := some "db.schema", source := some "db/schema.sql" })] })],
    intents := [("feature",
      { desired := some { services := some [("api", { states := some ["deps", "schema"] })] } })] }

/-- The plan `buildPlan` produces on `mPlanW`. -/
def planW : List PlanItem :=
  (buildPlan mPlanW "feature").toOption.getD []

/-- Witness for the amended C3 at the concrete manifest `mPlanW`. -/
theorem validatePlan_spec_amended_witness :
    ((validatePlan [] (fun _ => "") (fun _ _ => false) planW "/r").map resultKey).Nodup :=
  ((validatePlan_spec_amended mPlanW "feature"
      [("api", { states := some ["deps", "schema"] })] planW
      [] (fun _ => "") (fun _ _ => false) "/r" rfl (by decide)
      (by decide) rfl).2.2) (by decide)

/-! ### C7: missing desired services abort the plan -/

theorem buildPlanStates_ok_of_valid (serviceName : String) (svc : Service)
    (stateIds : List String)
    (hvalid : ∀ st ∈ stateIds, ∃ sd, objGet (svc.states.getD []) st = some sd
      ∧ truthyStr sd.type = true) :
    ∃ items, buildPlanStates serviceName svc stateIds = .ok items := by
  induction stateIds with
  | nil => exact ⟨[], rfl⟩
  | cons st rest ih =>
    obtain ⟨sd, hlook, htruthy⟩ := hvalid st (List.mem_cons_self _ _)
    obtain ⟨items, hitems⟩ := ih (fun st' h => hvalid st' (List.mem_cons_of_mem _ h))
    cases htype : sd.type with
    | none =>
      rw [htype] at htruthy
      exact absurd htruthy (by simp [truthyStr])
    | some t =>
      have ht : ¬ t = "" := by
        rw [htype] at htruthy
        simpa [truthyStr] using htruthy
      refine ⟨{ serviceName := serviceName, stateId := st, type := t,
                config := sd, service := svc } :: items, ?_⟩
      simp only [buildPlanStates]
      rw [hlook]
      dsimp only []
      rw [htype]
      dsimp only []
      rw [if_neg ht, hitems]
      rfl

theorem buildPlanLoop_not_ok (m : Manifest) (entries : List (String × DesiredSvc))
    (name : String) (hmem : name ∈ entries.map Prod.fst)
    (habsent : objGet m.services name = none) :
    ∀ plan, buildPlanLoop m entries ≠ .ok plan := by
  induction entries with
  | nil => simp at hmem
  | cons p rest ih =>
    obtain ⟨n, d⟩ := p
    intro plan h
    simp only [buildPlanLoop] at h
    cases hlook : objGet m.services n with
    | none =>
      rw [hlook] at h
      exact absurd h (by simp)
    | some svc =>
      rw [hlook] at h
      dsimp only [] at h
      cases hst : buildPlanStates n svc (d.states.getD []) with
      | error e =>
        rw [hst] at h
        exact absurd h (by simp)
      | ok items =>
        rw [hst] at h
        dsimp only [] at h
        cases hlp : buildPlanLoop m rest with
        | error e =>
          rw [hlp] at h
          exact absurd h (by simp [Except.map])
        | ok plan' =>
          have hne : n ≠ name := by
            intro he
            rw [he, habsent] at hlook
            exact Option.noConfusion hlook
          have hmem' : name ∈ rest.map Prod.fst := by
            simp only [List.map_cons, List.mem_cons] at hmem
            rcases hmem with h' | h'
            · exact absurd h'.symm hne
            · exact h'
          exact ih hmem' plan' hlp

/-- C7 (amended).  Whenever the intent's desired.services names a service
absent from the manifest, buildPlan fails and never returns a plan (the
failure aborts the whole expansion, so no partial plan exists); the error
is ServiceNotFound for that service whenever every earlier desired entry
resolves cleanly — an earlier entry can otherwise fail first with its own
error (e.g. StateNotFound), see the counterexample. -/
theorem buildPlan_missing_service_amended (m : Manifest) (intentName : String)
    (ds pre post : List (String × DesiredSvc)) (name : String) (d : DesiredSvc)
    (hds : ((objGet m.intents intentName).bind (·.desired)).bind (·.services) = some ds)
    (hsplit : ds = pre ++ (name, d) :: post)
    (habsent : objGet m.services name = none) :
    ((∀ p ∈ pre, ∃ svc, objGet m.services p.1 = some svc ∧
        ∀ st ∈ (p.2.states.getD []), ∃ sd, objGet (svc.states.getD []) st = some sd
          ∧ truthyStr sd.type = true) →
      buildPlan m intentName = .error (.serviceNotFound name))
    ∧ ∀ plan, buildPlan m intentName ≠ .ok plan := by
  have hloop_eq : buildPlan m intentName = buildPlanLoop m ds := by
    unfold buildPlan
    rw [hds]
  constructor
  · intro hpre
    rw [hloop_eq, hsplit]
    clear hds hloop_eq hsplit
    induction pre with
    | nil =>
      simp only [List.nil_append, buildPlanLoop]
      rw [habsent]
    | cons p pre' ih =>
      obtain ⟨n, dd⟩ := p
      obtain ⟨svc, hsvc, hstates⟩ := hpre (n, dd) (List.mem_cons_self _ _)
      obtain ⟨items, hitems⟩ := buildPlanStates_ok_of_valid n svc (dd.states.getD []) hstates
      simp only [List.cons_append, buildPlanLoop]
      rw [hsvc]
      dsimp only []
      rw [hitems]
      dsimp only []
      simp only [List.append_eq]
      rw [ih (fun q hq => hpre q (List.mem_cons_of_mem _ hq))]
      rfl
  · intro plan h
    rw [hloop_eq] at h
    have hmem : name ∈ ds.map Prod.fst := by
      rw [hsplit]
      simp
    exact buildPlanLoop_not_ok m ds name hmem habsent plan h

/-- Manifest whose intent names an absent service after an entry that
fails with StateNotFound. -/
def mC7 : Manifest :=
  { services := [("a", { states := some [("present", { type := some "env.export" })] })],
    intents := [("i",
      { desired := some
          { services := some
              [("a", { states := some ["missing"] }),
               ("ghost", { states := some [] })] } })] }

/-- C7 counterexample.  On `mC7` the desired services name "ghost", which
is absent from the manifest, yet the plan build fails with StateNotFound
for the earlier entry, not with ServiceNotFound. -/
theorem buildPlan_error_order_cex :
    buildPlan mC7 "i" = .error (.stateNotFound "a" "missing")
    ∧ objGet mC7.services "ghost" = none
    ∧ ((((objGet mC7.intents "i").bind (·.desired)).bind (·.services)).getD []).map Prod.fst
        = ["a", "ghost"]
    ∧ buildPlan mC7 "i" ≠ .error (.serviceNotFound "ghost") := by
  refine ⟨rfl, rfl, rfl, ?_⟩
  intro h
  have h2 : (Except.error (EngineError.stateNotFound "a" "missing")
      : Except EngineError (List PlanItem)) = .error (.serviceNotFound "ghost") :=
    (show buildPlan mC7 "i" = .error (.stateNotFound "a" "missing") from rfl).symm.trans h
  injection h2 with h3
  exact EngineError.noConfusion h3

/-- Manifest whose earlier desired entries are all valid, so the absent
"ghost" service is reached, for the C7 witness. -/
def mW7 : Manifest :=
  { services := [("a", { states := some [("deps", { type := some "package.deps" })] })],
    intents := [("i",
      { desired := some
          { services := some
              [("a", { states := some ["deps"] }),
               ("ghost", { states := some [] })] } })] }

/-- Witness for the amended C7 at the concrete manifest `mW7`. -/
theorem buildPlan_missing_service_amended_witness :
    buildPlan mW7 "i" = .error (.serviceNotFound "ghost")
    ∧ buildPlan mW7 "i" ≠ .ok [] := by
  have h := buildPlan_missing_service_amended mW7 "i"
    [("a", { states := some ["deps"] }), ("ghost", { states := some [] })]
    [("a", { states := some ["deps"] })] [] "ghost" { states := some [] }
    rfl rfl rfl
  refine ⟨h.1 ?_, h.2 []⟩
  intro p hp
  have hp' : p = ("a", ({ states := some ["deps"] } : DesiredSvc)) := by
    simpa using hp
  rw [hp']
  refine ⟨{ states := some [("deps", { type := some "package.deps" })] }, rfl, ?_⟩
  intro st hst
  have hst' : st = "deps" := by
    simpa using hst
  rw [hst']
  exact ⟨{ type := some "package.deps" }, rfl, rfl⟩

end Nexus
